import Mathlib

/-!
# Verification of the ENDGME-Backend scraping core

A shallow embedding, in Lean 4, of the extraction/normalization core of the
ENDGME backend (the `ScrapingUtils` and `ScrapingService` classes): the
current-format and legacy-format ability extractors, the lore extractor, the
stat extractors, the key/type normalizers, and the fetch-permission gate.

JavaScript strings are modelled as Lean `String`s; the JS string primitives
used by the source (`trim`, `toLowerCase`, `toUpperCase`, `split`, `join`,
`indexOf`, `substring`, the specific `replace` calls) are embedded as explicit
executable Lean functions over `String.data`.  Case conversion is modelled at
the basic-latin (ASCII) level, matching the character data handled by the
source.  Parsed HTML documents are modelled as the trees of values the source
actually inspects (cells with their text/`img`/`colspan`/bold children,
info-panel asides, blockquotes with their paragraph texts, attribute values as
`Option String` with JavaScript truthiness).
-/

/-- JS whitespace test used by `String.prototype.trim` (basic characters). -/
def isWsChar (c : Char) : Bool :=
  c == ' ' || c == '\t' || c == '\n' || c == '\r'

/-- Right-trim on character lists. -/
def trimRightChars (l : List Char) : List Char :=
  (l.reverse.dropWhile isWsChar).reverse

/-- Embedding of `String.prototype.trim`. -/
def jsTrim (s : String) : String :=
  ⟨(trimRightChars s.data).dropWhile isWsChar⟩

/-- Embedding of `String.prototype.toLowerCase`.  JS applies the full
Unicode lowercase mapping; its multi-character expansions (only `'İ'`
U+0130 among characters this development evaluates not at all) lie outside
the evaluated character data, so lowercasing is embedded one-to-one on code
points — exact on basic latin and on `'ß'`, which lowercases to itself. -/
def lowerStr (s : String) : String :=
  ⟨s.data.map Char.toLower⟩

/-- Full uppercase mapping of one character, per JS `toUpperCase`: the
basic-latin mapping, plus the Unicode special casing the development
evaluates — `'ß'` (U+00DF) uppercases to the two characters `"SS"`. -/
def upperMapChar (c : Char) : List Char :=
  if c = 'ß' then ['S', 'S'] else [c.toUpper]

/-- Embedding of `String.prototype.toUpperCase` (full mapping, so one
character may become several). -/
def upperStr (s : String) : String :=
  ⟨s.data.flatMap upperMapChar⟩

/-- Embedding of `.replace(/ /g, '_')`. -/
def spacesToUnderscores (s : String) : String :=
  ⟨s.data.map (fun c => if c == ' ' then '_' else c)⟩

/-- Embedding of `.split(sep)` on a one-character separator, on
character lists.  `split` of the empty string yields `[[]]`, as in JS. -/
def splitCh (sep : Char) : List Char → List (List Char)
  | [] => [[]]
  | c :: cs =>
    if c == sep then [] :: splitCh sep cs
    else
      match splitCh sep cs with
      | [] => [[c]]
      | w :: ws => (c :: w) :: ws

/-- Embedding of `Array.prototype.join(sep)` on character lists. -/
def joinCh (sep : Char) : List (List Char) → List Char
  | [] => []
  | [w] => w
  | w :: w' :: ws => w ++ sep :: joinCh sep (w' :: ws)

/-- `sep.join(words)` at the `String` level. -/
def joinSep (sep : String) : List String → String
  | [] => ""
  | [w] => w
  | w :: w' :: ws => w ++ sep ++ joinSep sep (w' :: ws)

/-- Embedding of `word.charAt(0).toUpperCase() + word.slice(1)`:
`charAt(0)` reads one UTF-16 unit and `toUpperCase` applies the full
uppercase mapping to it, which may yield several characters (`'ß'` ↦
`"SS"`). -/
def capWordCh : List Char → List Char
  | [] => []
  | c :: cs => upperMapChar c ++ cs

/-- `ScrapingUtils.capitalizeWords`: lower-case the whole string, split on
single spaces, capitalize each word's first character, re-join with spaces. -/
def capitalizeWords (text : String) : String :=
  ⟨joinCh ' ' ((splitCh ' ' (lowerStr text).data).map capWordCh)⟩

/-- Embedding of `.replace(/suffix$/, '')` for a literal suffix: strips one
occurrence of `suffix` at the end, if present. -/
def stripSuffixOnce (s : String) (suffix : List Char) : String :=
  if suffix.reverse.isPrefixOf s.data.reverse then
    ⟨(s.data.reverse.drop suffix.length).reverse⟩
  else s

/-- Embedding of `String.prototype.indexOf` for a substring, on character
lists: index of the first occurrence, if any. -/
def indexOfSub (sub : List Char) : List Char → Option Nat
  | [] => if sub.isEmpty then some 0 else none
  | c :: cs =>
    if sub.isPrefixOf (c :: cs) then some 0
    else (indexOfSub sub cs).map (· + 1)

/-- `s.substring(0, i)` (ASCII model: character index). -/
def substrTo (s : String) (i : Nat) : String := ⟨s.data.take i⟩

/-- `s.substring(i)` (ASCII model: character index). -/
def substrFrom (s : String) (i : Nat) : String := ⟨s.data.drop i⟩

/-! ## Data model of the inspected markup -/

/-- An `img` element, as inspected by the extractors: its `title` and `alt`
attributes (`none` = attribute absent). -/
structure Img where
  title : Option String
  alt : Option String
deriving DecidableEq

/-- A `b` element inside a continuation cell: its text content and the text
of its next sibling node (`none` = no next sibling). -/
structure Bold where
  text : String
  nextText : Option String
deriving DecidableEq

/-- A `td` element of the current-format skill table, carrying exactly the
data the extractor queries: the first descendant `img` (if any), the text
content, the `colspan` attribute, the inner HTML (only its JS truthiness is
used, via `= ""`), the text of the nested `small i` element, and the `b`
descendants in document order. -/
structure Cell where
  img : Option Img
  text : String
  colspan : Option String
  html : String
  smallIText : String
  bolds : List Bold
deriving DecidableEq

instance : Inhabited Cell := ⟨⟨none, "", none, "", "", []⟩⟩

/-- A `tr` of the skill table: its `td` children in document order. -/
structure Row where
  cells : List Cell
deriving DecidableEq

/-- An ability record as pushed into `abilitiesToInsert`.  `stats` is the JS
object modelled as an insertion-ordered key/value list (assigning to an
existing key overwrites in place). -/
structure Ability where
  hero_id : String
  name : String
  type : String
  description : String
  stats : List (String × String)
deriving DecidableEq

/-- JS-object assignment `stats[key] = value`: overwrite in place if the key
exists, otherwise append. -/
def insertKV (m : List (String × String)) (k v : String) : List (String × String) :=
  if m.any (fun p => p.1 == k) then
    m.map (fun p => if p.1 == k then (k, v) else p)
  else m ++ [(k, v)]

/-! ## Current-format extractor (`extractNewFormatAbilities`) -/

/-- A start row: `tds.length === 3`. -/
def isStartRow (r : Row) : Bool := r.cells.length == 3

/-- A continuation row: `tds.length === 1 && tds.attr('colspan') === '3'`. -/
def isContRow (r : Row) : Bool :=
  r.cells.length == 1 && (r.cells.headD default).colspan == some "3"

/-- `let imgTitle = typeImg.attr('title'); if (!imgTitle) imgTitle = typeImg.attr('alt')`:
the image's `title`, falling back to `alt` when `title` is absent or empty. -/
def labelOf (i : Img) : Option String :=
  match i.title with
  | some t => if t == "" then i.alt else some t
  | none => i.alt

/-- The `type` of a start row, from its first cell: mouse-button images map
to fixed binding names (any other image label leaves the initial `''`);
without an image, the trimmed upper-cased cell text. -/
def startType (r : Row) : String :=
  let c := r.cells.headD default
  match c.img with
  | some i =>
    if labelOf i == some "Left mouse button" then "Left Mouse Button"
    else if labelOf i == some "Right mouse button" then "Right Mouse Button"
    else ""
  | none => upperStr (jsTrim c.text)

/-- The ability record pushed for a start row: name from the last cell,
title-cased; empty description and stats. -/
def startAbility (heroId : String) (r : Row) : Ability :=
  { hero_id := heroId
    name := capitalizeWords (jsTrim (r.cells.getLastD default).text)
    type := startType r
    description := ""
    stats := [] }

/-- Key normalization for a `"key - value"` bold:
`.toLowerCase().replace(/ /g,'_').replace(/_-$/,'')`. -/
def normKeySep (s : String) : String :=
  stripSuffixOnce (spacesToUnderscores (lowerStr s)) ['_', '-']

/-- Key normalization for a label bold (no `" - "`):
`.replace(/:$/,'').toLowerCase().replace(/ /g,'_').replace(/_-$/,'')`. -/
def normKeyLabel (s : String) : String :=
  stripSuffixOnce (spacesToUnderscores (lowerStr (stripSuffixOnce s [':']))) ['_', '-']

/-- Effect of one `b` element on the stats object. -/
def applyBold (m : List (String × String)) (b : Bold) : List (String × String) :=
  let fullText := jsTrim b.text
  match indexOfSub " - ".data fullText.data with
  | some i =>
    let key := normKeySep (substrTo fullText i)
    let value := jsTrim (substrFrom fullText (i + 3))
    if key ≠ "" ∧ value ≠ "" then insertKV m key value else m
  | none =>
    let nextText := jsTrim (b.nextText.getD "")
    if nextText ≠ "" then
      let key := normKeyLabel fullText
      if key ≠ "" then insertKV m key nextText else m
    else m

/-- Effect of a continuation row on the current ability: when the cell has
content, a non-empty `small i` text overwrites the description, and each
bold contributes stats. -/
def applyContRow (a : Ability) (r : Row) : Ability :=
  let c := r.cells.headD default
  if c.html = "" then a
  else
    let d := jsTrim c.smallIText
    let a1 := if d = "" then a else { a with description := d }
    { a1 with stats := c.bolds.foldl applyBold a1.stats }

/-- One iteration of the row loop.  The mutable `currentAbility` aliases the
last pushed record (they share the `stats` object, and the code updates the
description in both), so the state is just the emitted list: a continuation
row with no previous start row (`currentAbility` still `null`) is a no-op. -/
def processRow (heroId : String) (acc : List Ability) (r : Row) : List Ability :=
  if isStartRow r then acc ++ [startAbility heroId r]
  else if isContRow r then
    match acc.getLast? with
    | none => acc
    | some a => acc.dropLast ++ [applyContRow a r]
  else acc

/-- `ScrapingUtils.extractNewFormatAbilities`: walk the skill-table rows in
document order with the `currentAbility` accumulator. -/
def extractNewFormatAbilities (heroId : String) (rows : List Row) : List Ability :=
  rows.foldl (processRow heroId) []

/-! ## Legacy-format extractor (`extractLegacyAbilities`) -/

/-- The canonical type lookup table of `mapAbilityType`, in source order. -/
def typeMap : List (String × String) :=
  [("Primary 1", "Left Mouse Button"),
   ("Primary 2", "Right Mouse Button"),
   ("Primary", "Left Mouse Button"),
   ("Q", "Q"),
   ("E", "E"),
   ("F", "F"),
   ("Passive", "Passive"),
   ("Left Shift", "Left Shift")]

/-- A value read off the `typeMap` object literal by JS property access:
either a string (an own property's value, or the `||` fallback to the raw
token), or a member inherited from `Object.prototype` (a function — or the
prototype object itself for `__proto__`) — a truthy non-string value. -/
inductive JsTypeValue where
  | str : String → JsTypeValue
  | inheritedMember : String → JsTypeValue
deriving DecidableEq

/-- The property names an object literal inherits from `Object.prototype`;
accessing any of them on `typeMap` yields a truthy non-string value. -/
def objectProtoMembers : List String :=
  ["constructor", "hasOwnProperty", "isPrototypeOf", "propertyIsEnumerable",
   "toLocaleString", "toString", "valueOf", "__defineGetter__",
   "__defineSetter__", "__lookupGetter__", "__lookupSetter__", "__proto__"]

/-- `ScrapingUtils.mapAbilityType`: `typeMap[rawType] || rawType`.  JS
property access consults own properties first (the 8 table entries), then
the prototype chain: a key naming an `Object.prototype` member yields that
inherited member, which is truthy and so is returned by `||` instead of the
raw token; only an absent key (`undefined`, falsy — or an own value that is
the empty string) falls back to `rawType`. -/
def mapAbilityType (rawType : String) : JsTypeValue :=
  match typeMap.find? (fun p => p.1 == rawType) with
  | some p => if p.2 = "" then JsTypeValue.str rawType else JsTypeValue.str p.2
  | none =>
    if rawType ∈ objectProtoMembers then JsTypeValue.inheritedMember rawType
    else JsTypeValue.str rawType

/-- One `.pi-horizontal-group` of an info-panel aside: its `.pi-data-label`
texts and `.pi-data-value` texts, in document order. -/
structure HGroup where
  labels : List String
  values : List String
deriving DecidableEq

/-- An info-panel `aside` of the legacy layout, carrying exactly the data
the extractor queries. -/
structure Aside where
  piTitle : String
  keybind : String
  descriptionText : String
  groups : List HGroup
  propertiesText : String
deriving DecidableEq

/-- The stats object of a legacy ability: label/value pairs of each
horizontal group (label index paired with the value at the same index, an
out-of-range index reading as text `''`), keys lower-cased with spaces as
underscores, then the optional `properties` text. -/
def legacyStats (a : Aside) : List (String × String) :=
  let m := a.groups.foldl
    (fun m g =>
      g.labels.enum.foldl
        (fun m il =>
          let key := spacesToUnderscores (lowerStr (jsTrim il.2))
          let value := jsTrim (g.values.getD il.1 "")
          if key ≠ "" ∧ value ≠ "" then insertKV m key value else m)
        m)
    []
  let properties := jsTrim a.propertiesText
  if properties ≠ "" then insertKV m "properties" properties else m

/-- An ability record as pushed by the legacy extractor.  The source
annotates `type` as a string, but the value actually stored is whatever
`mapAbilityType` returns — for a keybind text naming an inherited
`Object.prototype` member that is a non-string value. -/
structure LegacyAbility where
  hero_id : String
  name : String
  type : JsTypeValue
  description : String
  stats : List (String × String)
deriving DecidableEq

/-- `ScrapingUtils.extractLegacyAbilities`: one ability per info-panel
aside, pushed unconditionally. -/
def extractLegacyAbilities (heroId : String) (asides : List Aside) : List LegacyAbility :=
  asides.map (fun a =>
    { hero_id := heroId
      name := capitalizeWords (jsTrim a.piTitle)
      type := mapAbilityType (jsTrim a.keybind)
      description := jsTrim a.descriptionText
      stats := legacyStats a })

/-! ## Stat extraction (`extractDifficulty`) -/

/-- `ScrapingUtils.extractDifficulty`.  The page is represented by the list
of matched difficulty panels, each as the `alt` attributes of its descendant
images (`$(img).attr('alt') || ''` compared with `'StarFull'`).  No panel:
`null`; otherwise the count of full stars, or `null` when outside 1..5. -/
def extractDifficulty (difficultyDivs : List (List (Option String))) : Option Nat :=
  if difficultyDivs.isEmpty then none
  else
    let difficulty := difficultyDivs.flatten.foldl
      (fun d alt => if (alt.getD "") == "StarFull" then d + 1 else d) 0
    if difficulty < 1 ∨ difficulty > 5 then none else some difficulty

/-! ## Lore extraction (`getHeroLoreSection`) -/

/-- A `blockquote` element: its `id` and `class` attributes (`none` =
absent) and the texts of its `p` descendants in document order. -/
structure Blockquote where
  idAttr : Option String
  classAttr : Option String
  paragraphs : List String
deriving DecidableEq

/-- JS truthiness of an attribute value (absent or empty string = falsy). -/
def attrTruthy : Option String → Bool
  | none => false
  | some s => s != ""

/-- `ScrapingUtils.getHeroLoreSection`: among blockquotes with no (truthy)
`id` or `class`, take the first whose last paragraph trims to
`"— Biography"`; concatenate its other paragraphs' non-empty trimmed texts
each followed by a blank line, and trim; empty outcomes are `null`. -/
def getHeroLoreSection (blockquotes : List Blockquote) : Option String :=
  let loreBlockquotes := blockquotes.filter
    (fun b => !attrTruthy b.idAttr && !attrTruthy b.classAttr)
  if loreBlockquotes.isEmpty then none
  else
    match loreBlockquotes.find?
      (fun b => jsTrim (b.paragraphs.getLastD "") == "— Biography") with
    | none => none
    | some b =>
      let loreContent := b.paragraphs.dropLast.foldl
        (fun acc p =>
          let paragraph := jsTrim p
          if paragraph = "" then acc else acc ++ paragraph ++ "\n\n")
        ""
      let lore := jsTrim loreContent
      if lore = "" then none else some lore

/-! ## Fetch-permission gate (`canScrape`) -/

/-- A successfully fetched and parsed crawl policy, abstracted by the answer
`robots.isAllowed(url, userAgent)` gives for each URL and agent. -/
structure RobotsPolicy where
  isAllowed : String → String → Bool

/-- `ScrapingService.canScrape`: the whole `try` block (fetch `robots.txt`,
parse, evaluate) either yields a parsed policy or throws; the `catch`
returns `true` (fail open). -/
def canScrape (fetched : Except String RobotsPolicy) (url userAgent : String) : Bool :=
  match fetched with
  | .error _ => true
  | .ok robots => robots.isAllowed url userAgent

/-! ## Ability sink (`scrapeHeroAbilities` upsert) -/

/-- The `onConflict` option the ability pass passes to the sink
(`.upsert(abilitiesToInsert, { onConflict: 'name' })`). -/
def abilitiesOnConflict : String := "name"

/-- Modelled from the spec: the external store's upsert (§6, "upsert of
`Ability` rows") — for each incoming row in order, replace the existing rows
whose conflict key matches, otherwise insert at the end.  The store itself
is outside `src/`; only its conflict-resolution key is chosen by the code. -/
def upsertRows {K : Type} [DecidableEq K] (key : Ability → K)
    (table : List Ability) (rows : List Ability) : List Ability :=
  rows.foldl
    (fun t r =>
      if t.any (fun x => key x == key r) then
        t.map (fun x => if key x == key r then r else x)
      else t ++ [r])
    table

/-! ## Claim-side reference formulations

The spec describes the current-format walk as a segmentation of the row list:
each 3-cell start row opens a segment that extends to the next start row, and
an ability is built per segment from its start row and the continuation rows
inside it.  The following definitions state that reading; the theorems below
prove the extractor refines it. -/

/-- The key/value pairs a single bold element contributes, per the spec's
`"key - value"` / label-plus-sibling reading. -/
def boldPairs (b : Bold) : List (String × String) :=
  let fullText := jsTrim b.text
  match indexOfSub " - ".data fullText.data with
  | some i =>
    let key := normKeySep (substrTo fullText i)
    let value := jsTrim (substrFrom fullText (i + 3))
    if key ≠ "" ∧ value ≠ "" then [(key, value)] else []
  | none =>
    let nextText := jsTrim (b.nextText.getD "")
    if nextText ≠ "" then
      let key := normKeyLabel fullText
      if key ≠ "" then [(key, nextText)] else []
    else []

/-- The key/value pairs a row contributes: only continuation rows with
content contribute, via their bolds. -/
def rowPairs (r : Row) : List (String × String) :=
  if isContRow r then
    let c := r.cells.headD default
    if c.html = "" then [] else c.bolds.flatMap boldPairs
  else []

/-- The description after a row: a continuation row with content and a
non-empty nested `small i` text overwrites it. -/
def descStep (d : String) (r : Row) : String :=
  if isContRow r then
    let c := r.cells.headD default
    if c.html = "" then d
    else
      let t := jsTrim c.smallIText
      if t = "" then d else t
  else d

/-- The effect of one in-segment row on the current ability. -/
def stepAbility (a : Ability) (r : Row) : Ability :=
  if isContRow r then applyContRow a r else a

/-- Collect segments from a current start row `s` with the in-segment rows
accumulated (reversed) in `acc`. -/
def segGo (s : Row) (acc : List Row) : List Row → List (Row × List Row)
  | [] => [(s, acc.reverse)]
  | r :: rs =>
    if isStartRow r then (s, acc.reverse) :: segGo r [] rs
    else segGo s (r :: acc) rs

/-- The segmentation of a row list: one segment per start row, holding the
rows up to the next start row; rows before the first start row belong to no
segment. -/
def segments : List Row → List (Row × List Row)
  | [] => []
  | r :: rs => if isStartRow r then segGo r [] rs else segments rs

/-- The ability a segment yields, per the spec: name/type from the start
row, description the last one supplied by a continuation row, stats exactly
the normalized pairs of the segment's continuation rows, inserted in order. -/
def abilityOfSegment (heroId : String) (sc : Row × List Row) : Ability :=
  { startAbility heroId sc.1 with
    description := sc.2.foldl descStep ""
    stats := (sc.2.flatMap rowPairs).foldl (fun m kv => insertKV m kv.1 kv.2) [] }

/-- The number of difficulty-panel images whose `alt` is exactly
`'StarFull'` (claim-side count). -/
def countFullStars (difficultyDivs : List (List (Option String))) : Nat :=
  difficultyDivs.flatten.countP (fun alt => (alt.getD "") == "StarFull")

/-- The lore section per the spec's reading (as amended): first
unattributed blockquote ending in the biography marker; its other
paragraphs' non-empty trimmed texts, blank-line-separated, trimmed. -/
def loreSectionSpec (blockquotes : List Blockquote) : Option String :=
  let cands := blockquotes.filter
    (fun b => !attrTruthy b.idAttr && !attrTruthy b.classAttr)
  match cands.find?
    (fun b => jsTrim (b.paragraphs.getLastD "") == "— Biography") with
  | none => none
  | some b =>
    let lore := jsTrim (joinSep "\n\n"
      ((b.paragraphs.dropLast.map jsTrim).filter (fun p => p ≠ "")))
    if lore = "" then none else some lore

/-- The remaining output of the row loop, given the value of the current
(last emitted) ability: proof-side reformulation of the loop tail. -/
def goAbil (heroId : String) (a : Ability) : List Row → List Ability
  | [] => [a]
  | r :: rs =>
    if isStartRow r then a :: goAbil heroId (startAbility heroId r) rs
    else goAbil heroId (stepAbility a r) rs

/-- Proof-side form of the lore accumulation: each word followed by a blank
line. -/
def joinTrail : List String → String
  | [] => ""
  | w :: ws => w ++ "\n\n" ++ joinTrail ws

example : jsTrim "  a b \n" = "a b" := by decide
example : capitalizeWords "wEB strIKE" = "Web Strike" := by decide
example : capitalizeWords "" = "" := by decide
example : upperStr "q" = "Q" := by decide
example : spacesToUnderscores "a b c" = "a_b_c" := by decide
example : stripSuffixOnce "ab_-" ['_', '-'] = "ab" := by decide
example : stripSuffixOnce "ab" ['_', '-'] = "ab" := by decide
example : indexOfSub " - ".data "Cooldown - 6s".data = some 8 := by decide
example : substrTo "Cooldown - 6s" 8 = "Cooldown" := by decide
example : substrFrom "Cooldown - 6s" 11 = "6s" := by decide
example : splitCh ' ' "a  b".data = ["a".data, [], "b".data] := by decide

example :
    extractNewFormatAbilities "h1"
      [⟨[⟨some ⟨some "Left mouse button", none⟩, "", none, "", "", []⟩,
         ⟨none, "", none, "", "", []⟩,
         ⟨none, "web STRIKE", none, "", "", []⟩]⟩,
       ⟨[⟨none, "", some "3", "<small><i>x</i></small>", "Strikes the web.",
          [⟨"Cooldown - 6s", none⟩]⟩]⟩]
    = [{ hero_id := "h1", name := "Web Strike", type := "Left Mouse Button",
         description := "Strikes the web.", stats := [("cooldown", "6s")] }] := by
  decide

example :
    extractDifficulty [[some "StarFull", some "StarFull", some "StarFull",
                        some "StarFull", some "StarEmpty"]] = some 4 := by
  decide

example : extractDifficulty [] = none := by decide
example : extractDifficulty [[]] = none := by decide
example :
    extractDifficulty [[some "StarFull", some "StarFull", some "StarFull",
                        some "StarFull", some "StarFull", some "StarFull"]] = none := by
  decide

example :
    getHeroLoreSection
      [⟨some "q1", none, ["nope", "— Biography"]⟩,
       ⟨none, none, ["First paragraph.", "Second paragraph.", "— Biography"]⟩]
    = some "First paragraph.\n\nSecond paragraph." := by
  decide

example : getHeroLoreSection [⟨none, none, ["a", "b"]⟩] = none := by decide
example : getHeroLoreSection [] = none := by decide
example : getHeroLoreSection [⟨none, none, ["— Biography"]⟩] = none := by decide

example : mapAbilityType "Primary 2" = JsTypeValue.str "Right Mouse Button" := by decide
example : mapAbilityType "Ultimate" = JsTypeValue.str "Ultimate" := by decide
example : mapAbilityType "valueOf" = JsTypeValue.inheritedMember "valueOf" := by decide

example :
    extractLegacyAbilities "h2"
      [⟨" spider SENSE ", " Passive ", " Avoids danger. ",
        [⟨["Cool Down", "Range"], ["4s", "10m"]⟩], ""⟩]
    = [{ hero_id := "h2", name := "Spider Sense", type := JsTypeValue.str "Passive",
         description := "Avoids danger.",
         stats := [("cool_down", "4s"), ("range", "10m")] }] := by
  decide

/-! ## Refinement of the current-format extractor into segments -/

theorem isStartRow_eq_false_of_isContRow {r : Row} (h : isContRow r = true) :
    isStartRow r = false := by
  simp only [isContRow, Bool.and_eq_true, beq_iff_eq] at h
  obtain ⟨h1, -⟩ := h
  simp only [isStartRow, beq_eq_false_iff_ne, ne_eq]
  omega

theorem foldl_processRow_concat (heroId : String) :
    ∀ (rows : List Row) (done : List Ability) (a : Ability),
      rows.foldl (processRow heroId) (done ++ [a]) = done ++ goAbil heroId a rows
  | [], done, a => by simp [goAbil]
  | r :: rs, done, a => by
    rw [List.foldl_cons]
    by_cases hs : isStartRow r = true
    · have : processRow heroId (done ++ [a]) r = (done ++ [a]) ++ [startAbility heroId r] := by
        simp [processRow, hs]
      rw [this, foldl_processRow_concat heroId rs (done ++ [a]) (startAbility heroId r)]
      simp [goAbil, hs]
    · replace hs : isStartRow r = false := by simpa using hs
      by_cases hc : isContRow r = true
      · have : processRow heroId (done ++ [a]) r = done ++ [applyContRow a r] := by
          simp [processRow, hs, hc]
        rw [this, foldl_processRow_concat heroId rs done (applyContRow a r)]
        simp [goAbil, hs, stepAbility, hc]
      · replace hc : isContRow r = false := by simpa using hc
        have : processRow heroId (done ++ [a]) r = done ++ [a] := by
          simp [processRow, hs, hc]
        rw [this, foldl_processRow_concat heroId rs done a]
        simp [goAbil, hs, stepAbility, hc]

theorem goAbil_eq_segGo (heroId : String) :
    ∀ (rows : List Row) (s : Row) (acc : List Row),
      goAbil heroId (acc.reverse.foldl stepAbility (startAbility heroId s)) rows
        = (segGo s acc rows).map (fun sc => sc.2.foldl stepAbility (startAbility heroId sc.1))
  | [], s, acc => by simp [goAbil, segGo]
  | r :: rs, s, acc => by
    by_cases hs : isStartRow r = true
    · simp only [goAbil, segGo, hs, if_pos, List.map_cons]
      congr 1
      have := goAbil_eq_segGo heroId rs r []
      simpa using this
    · replace hs : isStartRow r = false := by simpa using hs
      simp only [goAbil, segGo, hs, Bool.false_eq_true, if_false]
      have := goAbil_eq_segGo heroId rs s (r :: acc)
      rw [← this]
      simp [List.foldl_append]

theorem extract_eq_segments_fold (heroId : String) :
    ∀ rows : List Row,
      extractNewFormatAbilities heroId rows
        = (segments rows).map (fun sc => sc.2.foldl stepAbility (startAbility heroId sc.1))
  | [] => rfl
  | r :: rs => by
    unfold extractNewFormatAbilities
    rw [List.foldl_cons]
    by_cases hs : isStartRow r = true
    · have hp : processRow heroId [] r = [] ++ [startAbility heroId r] := by
        simp [processRow, hs]
      rw [hp, foldl_processRow_concat heroId rs [] (startAbility heroId r)]
      have := goAbil_eq_segGo heroId rs r []
      simpa [segments, hs] using this
    · replace hs : isStartRow r = false := by simpa using hs
      have hp : processRow heroId [] r = [] := by
        by_cases hc : isContRow r = true <;> simp [processRow, hs, hc]
      rw [hp]
      have := extract_eq_segments_fold heroId rs
      unfold extractNewFormatAbilities at this
      rw [this]
      simp [segments, hs]

theorem applyBold_eq (m : List (String × String)) (b : Bold) :
    applyBold m b = (boldPairs b).foldl (fun m kv => insertKV m kv.1 kv.2) m := by
  simp only [applyBold, boldPairs]
  split <;> split_ifs <;> simp

theorem foldl_applyBold_eq (bolds : List Bold) :
    ∀ m : List (String × String),
      bolds.foldl applyBold m
        = (bolds.flatMap boldPairs).foldl (fun m kv => insertKV m kv.1 kv.2) m := by
  induction bolds with
  | nil => intro m; rfl
  | cons b bs ih =>
    intro m
    rw [List.foldl_cons, List.flatMap_cons, List.foldl_append, ← applyBold_eq, ih]

theorem stepAbility_spec (a : Ability) (r : Row) :
    stepAbility a r
      = { a with
          description := descStep a.description r
          stats := (rowPairs r).foldl (fun m kv => insertKV m kv.1 kv.2) a.stats } := by
  simp only [stepAbility, descStep, rowPairs, applyContRow]
  split_ifs <;> simp [foldl_applyBold_eq]

theorem foldl_stepAbility_spec :
    ∀ (conts : List Row) (a : Ability),
      conts.foldl stepAbility a
        = { a with
            description := conts.foldl descStep a.description
            stats := (conts.flatMap rowPairs).foldl
              (fun m kv => insertKV m kv.1 kv.2) a.stats } := by
  intro conts
  induction conts with
  | nil => intro a; rfl
  | cons r rs ih =>
    intro a
    rw [List.foldl_cons, ih, stepAbility_spec]
    simp [List.flatMap_cons, List.foldl_append]

theorem foldl_stepAbility_eq_abilityOfSegment (heroId : String) (sc : Row × List Row) :
    sc.2.foldl stepAbility (startAbility heroId sc.1) = abilityOfSegment heroId sc := by
  rw [foldl_stepAbility_spec]
  rfl

/-- Main refinement: the current-format extractor equals the per-segment
reading of the spec. -/
theorem extract_eq_segments (heroId : String) (rows : List Row) :
    extractNewFormatAbilities heroId rows
      = (segments rows).map (abilityOfSegment heroId) := by
  rw [extract_eq_segments_fold]
  exact List.map_congr_left fun sc _ => foldl_stepAbility_eq_abilityOfSegment heroId sc

theorem segGo_length :
    ∀ (rows : List Row) (s : Row) (acc : List Row),
      (segGo s acc rows).length = 1 + rows.countP isStartRow
  | [], s, acc => by simp [segGo]
  | r :: rs, s, acc => by
    by_cases hs : isStartRow r = true
    · simp [segGo, hs, segGo_length rs r [], List.countP_cons, Nat.add_comm]
    · replace hs : isStartRow r = false := by simpa using hs
      simp [segGo, hs, segGo_length rs s (r :: acc), List.countP_cons]

theorem segments_length :
    ∀ rows : List Row, (segments rows).length = rows.countP isStartRow
  | [] => rfl
  | r :: rs => by
    by_cases hs : isStartRow r = true
    · simp [segments, hs, segGo_length rs r [], List.countP_cons, Nat.add_comm]
    · replace hs : isStartRow r = false := by simpa using hs
      simp [segments, hs, segments_length rs, List.countP_cons]

theorem segGo_map_fst :
    ∀ (rows : List Row) (s : Row) (acc : List Row),
      (segGo s acc rows).map Prod.fst = s :: rows.filter isStartRow
  | [], s, acc => by simp [segGo]
  | r :: rs, s, acc => by
    by_cases hs : isStartRow r = true
    · simp [segGo, hs, segGo_map_fst rs r [], List.filter_cons]
    · replace hs : isStartRow r = false := by simpa using hs
      simp [segGo, hs, segGo_map_fst rs s (r :: acc), List.filter_cons]

theorem segments_map_fst :
    ∀ rows : List Row, (segments rows).map Prod.fst = rows.filter isStartRow
  | [] => rfl
  | r :: rs => by
    by_cases hs : isStartRow r = true
    · simp [segments, hs, segGo_map_fst rs r [], List.filter_cons]
    · replace hs : isStartRow r = false := by simpa using hs
      simp [segments, hs, segments_map_fst rs, List.filter_cons]

theorem abilityOfSegment_name (heroId : String) (sc : Row × List Row) :
    (abilityOfSegment heroId sc).name
      = capitalizeWords (jsTrim (sc.1.cells.getLastD default).text) := rfl

theorem abilityOfSegment_type (heroId : String) (sc : Row × List Row) :
    (abilityOfSegment heroId sc).type = startType sc.1 := rfl

/-! ## Claim theorems -/

/-- C1: for every character page processed by the current-format strategy,
the number of emitted abilities equals the number of rows with exactly three
data cells, the abilities appear in row order (one per start row, in
segment order), and each ability's stats map holds exactly the normalized
key/value pairs of the continuation rows between its start row and the next
start row. -/
theorem c1_current_format_segment_refinement (heroId : String) (rows : List Row) :
    (extractNewFormatAbilities heroId rows).length = rows.countP isStartRow
      ∧ extractNewFormatAbilities heroId rows
          = (segments rows).map (abilityOfSegment heroId) := by
  refine ⟨?_, extract_eq_segments heroId rows⟩
  rw [extract_eq_segments heroId rows, List.length_map, segments_length]

/-- C4: a continuation row updates only the most recently started ability
(the earlier output is untouched), and a continuation row arriving while no
ability has been started is silently ignored. -/
theorem c4_continuation_row_invariant (heroId : String) (r : Row)
    (init : List Ability) (a : Ability) (h : isContRow r = true) :
    processRow heroId [] r = []
      ∧ processRow heroId (init ++ [a]) r = init ++ [applyContRow a r] := by
  have hs := isStartRow_eq_false_of_isContRow h
  refine ⟨?_, ?_⟩
  · simp [processRow, hs, h]
  · simp [processRow, hs, h, List.getLast?_concat, List.dropLast_concat]

theorem c4_continuation_row_invariant_witness :
    isContRow ⟨[⟨none, "", some "3", "x", "The description.", []⟩]⟩ = true
      ∧ processRow "h" [] ⟨[⟨none, "", some "3", "x", "The description.", []⟩]⟩ = []
      ∧ processRow "h"
          [{ hero_id := "h", name := "A", type := "Q", description := "", stats := [] },
           { hero_id := "h", name := "B", type := "E", description := "", stats := [] }]
          ⟨[⟨none, "", some "3", "x", "The description.", []⟩]⟩
        = [{ hero_id := "h", name := "A", type := "Q", description := "", stats := [] },
           applyContRow
             { hero_id := "h", name := "B", type := "E", description := "", stats := [] }
             ⟨[⟨none, "", some "3", "x", "The description.", []⟩]⟩] := by
  refine ⟨by decide, ?_, ?_⟩
  · exact (c4_continuation_row_invariant "h" _ []
      { hero_id := "h", name := "A", type := "Q", description := "", stats := [] }
      (by decide)).1
  · exact (c4_continuation_row_invariant "h" _
      [{ hero_id := "h", name := "A", type := "Q", description := "", stats := [] }]
      { hero_id := "h", name := "B", type := "E", description := "", stats := [] }
      (by decide)).2

/-- C5 counterexample: a start row whose first cell holds an image with a
non-mouse label (`title` = `"Ultimate"`, cell text `"z"`) is emitted with
type `""`, not the trimmed upper-cased cell text `"Z"` the claim predicts
for every non-mouse-button first cell. -/
theorem c5_counterexample :
    (extractNewFormatAbilities "h"
        [⟨[⟨some ⟨some "Ultimate", none⟩, "z", none, "", "", []⟩,
           ⟨none, "", none, "", "", []⟩,
           ⟨none, "bombastic bash", none, "", "", []⟩]⟩]).map Ability.type = [""]
      ∧ upperStr (jsTrim "z") = "Z" ∧ ("" : String) ≠ "Z" := by
  decide

/-- C5 as amended: the emitted (type, name) pairs correspond one-to-one, in
order, to the start rows; a first cell *with* an image yields the fixed
binding name for the two mouse-button labels and the empty string for any
other image, and only an image-free first cell yields its trimmed
upper-cased text; the name is the last cell's trimmed text title-cased. -/
theorem c5_start_row_type_and_name (heroId : String) (rows : List Row) :
    (extractNewFormatAbilities heroId rows).map (fun a => (a.type, a.name))
      = (rows.filter isStartRow).map (fun r =>
          ((match (r.cells.headD default).img with
            | some i =>
              if labelOf i == some "Left mouse button" then "Left Mouse Button"
              else if labelOf i == some "Right mouse button" then "Right Mouse Button"
              else ""
            | none => upperStr (jsTrim (r.cells.headD default).text)),
           capitalizeWords (jsTrim (r.cells.getLastD default).text))) := by
  rw [extract_eq_segments, List.map_map, ← segments_map_fst, List.map_map]
  refine List.map_congr_left fun sc _ => ?_
  show ((abilityOfSegment heroId sc).type, (abilityOfSegment heroId sc).name) = _
  rw [abilityOfSegment_type, abilityOfSegment_name]
  rfl

theorem typeMap_find_eq_none {t : String} (ht : t ∉ typeMap.map Prod.fst) :
    typeMap.find? (fun p => p.1 == t) = none := by
  rw [List.find?_eq_none]
  intro p hp
  simp only [beq_iff_eq]
  exact fun h => ht (h ▸ List.mem_map_of_mem Prod.fst hp)

/-- C6 counterexample: `"constructor"` is not in the lookup table, yet
`typeMap['constructor']` finds the `constructor` member inherited from
`Object.prototype` — a truthy non-string — so the mapping returns that
member, not the input unchanged. -/
theorem c6_counterexample :
    "constructor" ∉ typeMap.map Prod.fst
      ∧ mapAbilityType "constructor" = JsTypeValue.inheritedMember "constructor"
      ∧ JsTypeValue.inheritedMember "constructor" ≠ JsTypeValue.str "constructor" := by
  refine ⟨by decide, by decide, by decide⟩

/-- C6 as amended: every entry of the canonical lookup table maps to its
canonical token; a token outside the table passes through unchanged unless
it names a member inherited from `Object.prototype`, in which case property
access yields that inherited (truthy, non-string) member instead of the
input. -/
theorem c6_type_map_own_and_inherited :
    (∀ p ∈ typeMap, mapAbilityType p.1 = JsTypeValue.str p.2)
      ∧ (∀ t : String, t ∉ typeMap.map Prod.fst → t ∉ objectProtoMembers →
          mapAbilityType t = JsTypeValue.str t)
      ∧ (∀ t : String, t ∉ typeMap.map Prod.fst → t ∈ objectProtoMembers →
          mapAbilityType t = JsTypeValue.inheritedMember t) := by
  refine ⟨by decide, ?_, ?_⟩
  · intro t ht hp
    simp [mapAbilityType, typeMap_find_eq_none ht, hp]
  · intro t ht hp
    simp [mapAbilityType, typeMap_find_eq_none ht, hp]

theorem c6_type_map_own_and_inherited_witness :
    (("Primary 1", "Left Mouse Button") ∈ typeMap
        ∧ mapAbilityType "Primary 1" = JsTypeValue.str "Left Mouse Button")
      ∧ ("Ultimate" ∉ typeMap.map Prod.fst ∧ "Ultimate" ∉ objectProtoMembers
          ∧ mapAbilityType "Ultimate" = JsTypeValue.str "Ultimate")
      ∧ ("toString" ∉ typeMap.map Prod.fst ∧ "toString" ∈ objectProtoMembers
          ∧ mapAbilityType "toString" = JsTypeValue.inheritedMember "toString") :=
  ⟨⟨by decide,
    c6_type_map_own_and_inherited.1 ("Primary 1", "Left Mouse Button") (by decide)⟩,
   ⟨by decide, by decide,
    c6_type_map_own_and_inherited.2.1 "Ultimate" (by decide) (by decide)⟩,
   ⟨by decide, by decide,
    c6_type_map_own_and_inherited.2.2 "toString" (by decide) (by decide)⟩⟩

theorem foldl_count_if {α : Type} (p : α → Bool) :
    ∀ (l : List α) (n : Nat),
      l.foldl (fun d a => if p a then d + 1 else d) n = n + l.countP p
  | [], n => by simp
  | a :: l, n => by
    rw [List.foldl_cons, foldl_count_if p l, List.countP_cons]
    by_cases h : p a = true
    · simp [h]
      omega
    · simp [h]

/-- C7: difficulty extraction returns the full-star count exactly when the
panel exists and the count lies in 1..5, and `null` (unknown) otherwise —
in particular it never yields a value outside 1..5 and never clamps. -/
theorem c7_difficulty_in_range (difficultyDivs : List (List (Option String))) :
    extractDifficulty difficultyDivs
      = if difficultyDivs.isEmpty then none
        else if 1 ≤ countFullStars difficultyDivs ∧ countFullStars difficultyDivs ≤ 5
          then some (countFullStars difficultyDivs)
          else none := by
  unfold extractDifficulty countFullStars
  by_cases he : difficultyDivs.isEmpty
  · simp [he]
  · simp only [he, if_false, Bool.false_eq_true]
    rw [foldl_count_if]
    set c := difficultyDivs.flatten.countP (fun alt => (alt.getD "") == "StarFull") with hc
    by_cases h : 1 ≤ c ∧ c ≤ 5
    · rw [if_pos h, if_neg (by omega)]
      simp
    · rw [if_neg h, if_pos (by omega)]

/-- C3: the fetch-permission check returns allowed whenever retrieving or
parsing the crawl policy throws (fail open), and otherwise returns exactly
the parsed policy's verdict — so it denies only when a successfully parsed
policy disallows the URL. -/
theorem c3_can_scrape_fails_open (url userAgent e : String) (robots : RobotsPolicy) :
    canScrape (Except.error e) url userAgent = true
      ∧ canScrape (Except.ok robots) url userAgent = robots.isAllowed url userAgent :=
  ⟨rfl, rfl⟩

/-- C2 (code bug): the ability pass requests conflict resolution on `name`
alone (`onConflict: 'name'`), so upserting extracted rows for two different
heroes that share an ability name makes the second replace the first, while
the claimed `(characterId, name)` identity would keep both. -/
theorem c2_upsert_conflict_key_bug :
    abilitiesOnConflict = "name"
      ∧ upsertRows (fun a => a.name)
          (upsertRows (fun a => a.name) []
            [{ hero_id := "hero-1", name := "Team-Up", type := "Q", description := "", stats := [] }])
          [{ hero_id := "hero-2", name := "Team-Up", type := "E", description := "", stats := [] }]
        = [{ hero_id := "hero-2", name := "Team-Up", type := "E", description := "", stats := [] }]
      ∧ upsertRows (fun a => (a.hero_id, a.name))
          (upsertRows (fun a => (a.hero_id, a.name)) []
            [{ hero_id := "hero-1", name := "Team-Up", type := "Q", description := "", stats := [] }])
          [{ hero_id := "hero-2", name := "Team-Up", type := "E", description := "", stats := [] }]
        = [{ hero_id := "hero-1", name := "Team-Up", type := "Q", description := "", stats := [] },
           { hero_id := "hero-2", name := "Team-Up", type := "E", description := "", stats := [] }] := by
  refine ⟨rfl, by decide, by decide⟩

/-- C9 counterexample: a start row of three empty cells is emitted with
empty name and empty type — nothing is dropped. -/
theorem c9_counterexample :
    extractNewFormatAbilities "hero-1"
        [⟨[⟨none, "", none, "", "", []⟩, ⟨none, "", none, "", "", []⟩,
           ⟨none, "", none, "", "", []⟩]⟩]
      = [{ hero_id := "hero-1", name := "", type := "", description := "", stats := [] }]
      ∧ ¬ (∀ a ∈ extractNewFormatAbilities "hero-1"
            [⟨[⟨none, "", none, "", "", []⟩, ⟨none, "", none, "", "", []⟩,
               ⟨none, "", none, "", "", []⟩]⟩], a.name ≠ "" ∧ a.type ≠ "") := by
  refine ⟨by decide, by decide⟩

/-- C9 as amended: both strategies emit unconditionally — the current-format
strategy emits exactly one ability per 3-cell start row and the legacy
strategy exactly one per info panel, with no per-ability dropping on empty
name or type. -/
theorem c9_no_per_ability_dropping (heroId : String) (rows : List Row)
    (asides : List Aside) :
    (extractNewFormatAbilities heroId rows).length = rows.countP isStartRow
      ∧ (extractLegacyAbilities heroId asides).length = asides.length := by
  constructor
  · rw [extract_eq_segments heroId rows, List.length_map, segments_length]
  · unfold extractLegacyAbilities
    rw [List.length_map]

/-! ## Lore extraction: fold/join equivalence -/

theorem trimRightChars_append_blankline (l : List Char) :
    trimRightChars (l ++ ['\n', '\n']) = trimRightChars l := by
  unfold trimRightChars
  rw [List.reverse_append]
  rfl

theorem jsTrim_append_blankline (s : String) : jsTrim (s ++ "\n\n") = jsTrim s := by
  unfold jsTrim
  have h : (s ++ "\n\n").data = s.data ++ ['\n', '\n'] := String.data_append s "\n\n"
  rw [h, trimRightChars_append_blankline]

theorem foldl_lore_step :
    ∀ (ps : List String) (acc : String),
      ps.foldl
        (fun acc p =>
          let paragraph := jsTrim p
          if paragraph = "" then acc else acc ++ paragraph ++ "\n\n")
        acc
        = acc ++ joinTrail ((ps.map jsTrim).filter (fun p => p ≠ ""))
  | [], acc => by simp [joinTrail]
  | p :: ps, acc => by
    rw [List.foldl_cons, foldl_lore_step ps]
    by_cases hq : jsTrim p = ""
    · simp [hq, List.filter_cons]
    · simp only [List.map_cons, List.filter_cons, hq, if_neg]
      have hd : (decide ¬(jsTrim p = "")) = true := by simpa using hq
      simp only [decide_not, hd, if_pos, joinTrail]
      apply String.ext
      simp

theorem joinTrail_eq_joinSep_append :
    ∀ ws : List String, ws ≠ [] → joinTrail ws = joinSep "\n\n" ws ++ "\n\n"
  | [w], _ => by simp [joinTrail, joinSep]
  | w :: w' :: ws, _ => by
    have ih := joinTrail_eq_joinSep_append (w' :: ws) (by simp)
    simp only [joinTrail, joinSep] at ih ⊢
    rw [ih]
    apply String.ext
    simp

theorem jsTrim_joinTrail (ws : List String) :
    jsTrim (joinTrail ws) = jsTrim (joinSep "\n\n" ws) := by
  match ws with
  | [] => rfl
  | w :: ws' =>
    rw [joinTrail_eq_joinSep_append (w :: ws') (by simp), jsTrim_append_blankline]

/-- C8 counterexample: in a marker blockquote whose preceding paragraphs are
`"First."`, a whitespace-only paragraph, and `"Second."`, the code skips the
empty trimmed paragraph and returns `"First.\n\nSecond."`, while the claimed
"trimmed concatenation of the preceding paragraphs' trimmed texts separated
by blank lines" is `"First.\n\n\n\nSecond."`. -/
theorem c8_counterexample :
    getHeroLoreSection [⟨none, none, ["First.", " ", "Second.", "— Biography"]⟩]
        = some "First.\n\nSecond."
      ∧ jsTrim (joinSep "\n\n"
          ((["First.", " ", "Second.", "— Biography"] : List String).dropLast.map jsTrim))
        = "First.\n\n\n\nSecond."
      ∧ ("First.\n\nSecond." : String) ≠ "First.\n\n\n\nSecond." := by
  refine ⟨by decide, by decide, by decide⟩

/-- C8 as amended: lore extraction considers only blockquotes with no
(truthy) id or class, picks the first whose last paragraph trims to the
biography marker, and returns the trimmed blank-line-separated concatenation
of its *non-empty* trimmed preceding paragraphs; no candidate, no marker, or
an empty result each give `null`. -/
theorem c8_lore_section_spec (blockquotes : List Blockquote) :
    getHeroLoreSection blockquotes = loreSectionSpec blockquotes := by
  unfold getHeroLoreSection loreSectionSpec
  by_cases he :
      (blockquotes.filter
        (fun b => !attrTruthy b.idAttr && !attrTruthy b.classAttr)).isEmpty
  · rw [List.isEmpty_iff] at he
    simp [he]
  · simp only [he, Bool.false_eq_true, if_false]
    cases hf :
        (blockquotes.filter
          (fun b => !attrTruthy b.idAttr && !attrTruthy b.classAttr)).find?
          (fun b => jsTrim (b.paragraphs.getLastD "") == "— Biography") with
    | none => rfl
    | some b =>
      simp only
      rw [foldl_lore_step b.paragraphs.dropLast "", String.empty_append,
        jsTrim_joinTrail]

/-! ## Title-casing: idempotence machinery -/

theorem toNat_ofNat_isValid {n : Nat} (h : n.isValidChar) :
    (Char.ofNat n).toNat = n := by
  simp only [Char.ofNat, dif_pos h, Char.ofNatAux, Char.toNat, UInt32.toNat]
  simp

theorem toLower_toLower (c : Char) : c.toLower.toLower = c.toLower := by
  by_cases h : 65 ≤ c.toNat ∧ c.toNat ≤ 90
  · have hl : c.toLower = Char.ofNat (c.toNat + 32) := by
      simp only [Char.toLower]
      rw [if_pos]
      exact h
    have hv : (Char.ofNat (c.toNat + 32)).toNat = c.toNat + 32 :=
      toNat_ofNat_isValid (Or.inl (by omega))
    rw [hl]
    simp only [Char.toLower, hv]
    rw [if_neg (by omega)]
  · have hl : c.toLower = c := by
      simp only [Char.toLower]
      rw [if_neg]
      exact h
    rw [hl, hl]

theorem toLower_toUpper (c : Char) : c.toUpper.toLower = c.toLower := by
  by_cases h : 97 ≤ c.toNat ∧ c.toNat ≤ 122
  · have hu : c.toUpper = Char.ofNat (c.toNat - 32) := by
      simp only [Char.toUpper]
      rw [if_pos]
      exact h
    have hv : (Char.ofNat (c.toNat - 32)).toNat = c.toNat - 32 :=
      toNat_ofNat_isValid (Or.inl (by omega))
    rw [hu]
    simp only [Char.toLower, hv]
    rw [if_pos (by omega)]
    have h32 : c.toNat - 32 + 32 = c.toNat := by omega
    rw [h32, if_neg (by omega), Char.ofNat_toNat]
  · have hu : c.toUpper = c := by
      simp only [Char.toUpper]
      rw [if_neg]
      exact h
    rw [hu]

theorem splitCh_ne_nil (sep : Char) : ∀ l : List Char, splitCh sep l ≠ []
  | [] => by simp [splitCh]
  | c :: cs => by
    by_cases h : (c == sep) = true
    · simp [splitCh, h]
    · replace h : (c == sep) = false := by simpa using h
      simp only [splitCh, h, Bool.false_eq_true, if_false]
      cases hs : splitCh sep cs <;> simp

theorem not_mem_of_mem_splitCh (sep : Char) :
    ∀ (l : List Char) (w : List Char), w ∈ splitCh sep l → sep ∉ w
  | [], w, hw => by
    simp only [splitCh, List.mem_singleton] at hw
    simp [hw]
  | c :: cs, w, hw => by
    by_cases h : (c == sep) = true
    · simp only [splitCh, h, if_pos, List.mem_cons] at hw
      rcases hw with hw | hw
      · simp [hw]
      · exact not_mem_of_mem_splitCh sep cs w hw
    · replace h : (c == sep) = false := by simpa using h
      simp only [splitCh, h, Bool.false_eq_true, if_false] at hw
      cases hs : splitCh sep cs with
      | nil => exact absurd hs (splitCh_ne_nil sep cs)
      | cons w0 ws =>
        rw [hs] at hw
        rcases List.mem_cons.mp hw with hw | hw
        · subst hw
          intro hmem
          rcases List.mem_cons.mp hmem with hc | hc
          · subst hc
            simp at h
          · exact not_mem_of_mem_splitCh sep cs w0 (hs ▸ List.mem_cons_self w0 ws) hc
        · exact not_mem_of_mem_splitCh sep cs w (hs ▸ List.mem_cons_of_mem w0 hw)

theorem mem_of_mem_splitCh (sep : Char) :
    ∀ (l : List Char) (w : List Char) (x : Char),
      w ∈ splitCh sep l → x ∈ w → x ∈ l
  | [], w, x, hw, hx => by
    simp only [splitCh, List.mem_singleton] at hw
    subst hw
    simp at hx
  | c :: cs, w, x, hw, hx => by
    by_cases h : (c == sep) = true
    · simp only [splitCh, h, if_pos, List.mem_cons] at hw
      rcases hw with hw | hw
      · subst hw
        simp at hx
      · exact List.mem_cons_of_mem c (mem_of_mem_splitCh sep cs w x hw hx)
    · replace h : (c == sep) = false := by simpa using h
      simp only [splitCh, h, Bool.false_eq_true, if_false] at hw
      cases hs : splitCh sep cs with
      | nil => exact absurd hs (splitCh_ne_nil sep cs)
      | cons w0 ws =>
        rw [hs] at hw
        rcases List.mem_cons.mp hw with hw | hw
        · subst hw
          rcases List.mem_cons.mp hx with hx | hx
          · subst hx
            exact List.mem_cons_self x cs
          · exact List.mem_cons_of_mem c
              (mem_of_mem_splitCh sep cs w0 x (hs ▸ List.mem_cons_self w0 ws) hx)
        · exact List.mem_cons_of_mem c
            (mem_of_mem_splitCh sep cs w x (hs ▸ List.mem_cons_of_mem w0 hw) hx)

theorem splitCh_no_sep (sep : Char) :
    ∀ w : List Char, sep ∉ w → splitCh sep w = [w]
  | [], _ => rfl
  | c :: cs, h => by
    have hc : (c == sep) = false := by
      simp only [beq_eq_false_iff_ne, ne_eq]
      exact fun hx => h (hx ▸ List.mem_cons_self c cs)
    have ih := splitCh_no_sep sep cs (fun hx => h (List.mem_cons_of_mem c hx))
    simp [splitCh, hc, ih]

theorem splitCh_append_sep (sep : Char) :
    ∀ (w rest : List Char), sep ∉ w →
      splitCh sep (w ++ sep :: rest) = w :: splitCh sep rest
  | [], rest, _ => by simp [splitCh]
  | c :: cs, rest, h => by
    have hc : (c == sep) = false := by
      simp only [beq_eq_false_iff_ne, ne_eq]
      exact fun hx => h (hx ▸ List.mem_cons_self c cs)
    have ih := splitCh_append_sep sep cs rest
      (fun hx => h (List.mem_cons_of_mem c hx))
    simp [splitCh, hc, ih]

theorem splitCh_joinCh (sep : Char) :
    ∀ ws : List (List Char), ws ≠ [] → (∀ w ∈ ws, sep ∉ w) →
      splitCh sep (joinCh sep ws) = ws
  | [w], _, hws => by
    simp only [joinCh]
    exact splitCh_no_sep sep w (hws w (List.mem_singleton.mpr rfl))
  | w :: w' :: ws, _, hws => by
    have ih := splitCh_joinCh sep (w' :: ws) (by simp)
      (fun u hu => hws u (List.mem_cons_of_mem w hu))
    simp only [joinCh]
    rw [splitCh_append_sep sep w _ (hws w (List.mem_cons_self w _)), ih]

theorem map_joinCh (f : Char → Char) (sep : Char) (hf : f sep = sep) :
    ∀ ws : List (List Char),
      (joinCh sep ws).map f = joinCh sep (ws.map (fun w => w.map f))
  | [] => rfl
  | [w] => rfl
  | w :: w' :: ws => by
    simp only [joinCh, List.map_append, List.map_cons, hf]
    rw [map_joinCh f sep hf (w' :: ws)]
    rfl

theorem upperMapChar_of_lt_128 {c : Char} (h : c.toNat < 128) :
    upperMapChar c = [c.toUpper] := by
  unfold upperMapChar
  rw [if_neg]
  intro he
  subst he
  exact absurd h (by decide)

theorem toLower_toNat_lt_128 {c : Char} (h : c.toNat < 128) :
    c.toLower.toNat < 128 := by
  by_cases hc : 65 ≤ c.toNat ∧ c.toNat ≤ 90
  · have hl : c.toLower = Char.ofNat (c.toNat + 32) := by
      simp only [Char.toLower]
      rw [if_pos]
      exact hc
    rw [hl, toNat_ofNat_isValid (Or.inl (by omega))]
    omega
  · have hl : c.toLower = c := by
      simp only [Char.toLower]
      rw [if_neg]
      exact hc
    rw [hl]
    exact h

theorem map_toLower_capWordCh (w : List Char) (hw : w.map Char.toLower = w)
    (hascii : ∀ c ∈ w, c.toNat < 128) :
    (capWordCh w).map Char.toLower = w := by
  cases w with
  | nil => rfl
  | cons c cs =>
    simp only [List.map_cons, List.cons.injEq] at hw
    have hc : upperMapChar c = [c.toUpper] :=
      upperMapChar_of_lt_128 (hascii c (List.mem_cons_self c cs))
    simp only [capWordCh, hc, List.singleton_append, List.map_cons,
      toLower_toUpper, hw.1, hw.2, and_self]

/-- C10 counterexample: JS applies the full uppercase mapping, so
`capitalizeWords "ß"` is `"SS"` (`'ß'.toUpperCase() = "SS"`), while a
second application lower-cases to `"ss"` and re-capitalizes to `"Ss"` —
the function is not idempotent on every input string. -/
theorem c10_counterexample :
    capitalizeWords "ß" = "SS"
      ∧ capitalizeWords (capitalizeWords "ß") = "Ss"
      ∧ ("Ss" : String) ≠ "SS" := by
  refine ⟨by decide, by decide, by decide⟩

/-- C10 as amended: the word-level title-casing is idempotent on every
string of basic-latin (ASCII) characters — the character data the scraper
handles; idempotence fails only where a Unicode special casing expands a
character (`'ß'` ↦ `"SS"`). -/
theorem c10_capitalizeWords_idempotent_ascii (s : String)
    (h : ∀ c ∈ s.data, c.toNat < 128) :
    capitalizeWords (capitalizeWords s) = capitalizeWords s := by
  apply String.ext
  show joinCh ' ' ((splitCh ' ' (lowerStr (capitalizeWords s)).data).map capWordCh)
      = joinCh ' ' ((splitCh ' ' (lowerStr s).data).map capWordCh)
  suffices hsuf : splitCh ' ' (lowerStr (capitalizeWords s)).data
      = splitCh ' ' (lowerStr s).data by rw [hsuf]
  have h1 : (lowerStr (capitalizeWords s)).data
      = (joinCh ' ' ((splitCh ' ' (lowerStr s).data).map capWordCh)).map Char.toLower := rfl
  rw [h1, map_joinCh Char.toLower ' ' (by decide), List.map_map]
  have h2 : ∀ w ∈ splitCh ' ' (lowerStr s).data,
      ((fun w => w.map Char.toLower) ∘ capWordCh) w = id w := by
    intro w hw
    have hsub : ∀ c ∈ w, c ∈ (lowerStr s).data :=
      fun c hc => mem_of_mem_splitCh ' ' _ w c hw hc
    have hlow : ∀ c ∈ w, Char.toLower c = c := by
      intro c hc
      have hcl := hsub c hc
      simp only [lowerStr] at hcl
      rcases List.mem_map.mp hcl with ⟨c0, -, rfl⟩
      exact toLower_toLower c0
    have hascii : ∀ c ∈ w, c.toNat < 128 := by
      intro c hc
      have hcl := hsub c hc
      simp only [lowerStr] at hcl
      rcases List.mem_map.mp hcl with ⟨c0, hc0, rfl⟩
      exact toLower_toNat_lt_128 (h c0 hc0)
    have hfix : w.map Char.toLower = w :=
      (List.map_congr_left hlow).trans (List.map_id w)
    exact map_toLower_capWordCh w hfix hascii
  rw [List.map_congr_left h2, List.map_id]
  exact splitCh_joinCh ' ' _ (splitCh_ne_nil ' ' _)
    (fun w hw => not_mem_of_mem_splitCh ' ' _ w hw)

theorem c10_capitalizeWords_idempotent_ascii_witness :
    (∀ c ∈ ("wEB STRIKE spider" : String).data, c.toNat < 128)
      ∧ capitalizeWords (capitalizeWords "wEB STRIKE spider")
          = capitalizeWords "wEB STRIKE spider" :=
  ⟨by decide, c10_capitalizeWords_idempotent_ascii "wEB STRIKE spider" (by decide)⟩
